import Mathlib

/-!
Verification of the git metadata resolver in `src/extension.ts`
(vscode-open-github).  The resolver walks parent directories to find the
`.git` data directory, parses the `HEAD` and `config` files, resolves the
upstream remote URL and branch, and builds GitHub URLs.

File I/O is abstracted away: every function below takes file *contents*
(as `List Char`) or an existence predicate on paths (as
`List String → Bool`, a path being its list of components), and the
JavaScript regular expressions of the source are translated by hand into
explicit scanning functions.  JS character classes are modelled by
`isLineTerm` (the characters that `.` does not match), `isJsSpace` (the
`\s` class, restricted to the characters that can actually appear here)
and `isHexLower` (`[0-9a-f]`).
-/

namespace OpenGithub

/-- The JS regex `.` metacharacter matches everything except the line
terminators `\n`, `\r`, U+2028 and U+2029. -/
def isLineTerm (c : Char) : Bool :=
  c = '\n' || c = '\r' || c = '\u2028' || c = '\u2029'

/-- Model of the JS `\s` class (and of `String.prototype.trim`'s notion of
whitespace): ASCII whitespace plus no-break space and BOM. -/
def isJsSpace (c : Char) : Bool :=
  c = ' ' || c = '\t' || c = '\n' || c = '\r' || c = '\x0b' || c = '\x0c' ||
  c = '\u00a0' || c = '\ufeff'

/-- The JS character class `[0-9a-f]` used for commit ids. -/
def isHexLower (c : Char) : Bool :=
  ('0' ≤ c && c ≤ '9') || ('a' ≤ c && c ≤ 'f')

/-- Leftmost-match search: JS `String.prototype.match` tries the pattern at
every start position from the left; `scanFor f l` applies the
position-local matcher `f` to every suffix of `l`, leftmost (longest
suffix) first. -/
def scanFor (f : List Char → Option α) : List Char → Option α
  | [] => f []
  | c :: cs =>
    match f (c :: cs) with
    | some a => some a
    | none => scanFor f cs

/-- Executable substring test: `pat` occurs somewhere inside `s`. -/
def occursB (pat s : List Char) : Bool :=
  (List.range (s.length + 1)).any (fun i => pat.isPrefixOf (s.drop i))

/-! ### HEAD parsing (`getCurrentHEAD`, extension.ts lines 225-241) -/

/-- The literal part of the regex `ref: refs\/heads\/(.*)`. -/
def refMarker : List Char := "ref: refs/heads/".data

/-- Position-local matcher for `ref: refs\/heads\/(.*)`: if the marker
starts here, the capture is everything up to the next line terminator. -/
def tryRef (l : List Char) : Option (List Char) :=
  if refMarker.isPrefixOf l then
    some ((l.drop refMarker.length).takeWhile (fun c => !isLineTerm c))
  else
    none

/-- Position-local matcher for `([0-9a-f]{40})`: 40 lowercase hex
characters starting here. -/
def trySha (l : List Char) : Option (List Char) :=
  let t := l.take 40
  if t.length = 40 && t.all isHexLower then some t else none

/-- The result of parsing the HEAD file (`CurrentHEAD` in the source; the
`Err` returned when neither regex matches is the `malformed` case). -/
inductive CurrentHEAD
  | branch (b : List Char)
  | sha1 (s : List Char)
  | malformed
deriving DecidableEq

/-- Model of `getCurrentHEAD`, applied to the *content* of the HEAD file: first try
the symbolic-ref regex `ref: refs\/heads\/(.*)`, then the commit-id regex
`([0-9a-f]{40})`; if neither matches anywhere, the HEAD is malformed. -/
def getCurrentHEAD (head : List Char) : CurrentHEAD :=
  match scanFor tryRef head with
  | some b => .branch b
  | none =>
    match scanFor trySha head with
    | some s => .sha1 s
    | none => .malformed

/-! ### Config section extraction (`extractSection`, lines 212-219)

The source builds the regex `\[<sectionName>\]\n((\s.*\n)+)` and returns
capture group 1.  For a section name free of regex metacharacters this
means: find the literal text `[<sectionName>]` followed by a newline, then
greedily take one or more "section lines", each consisting of one `\s`
character, a run of non-line-terminator characters, and a literal `\n`.
A header occurrence followed by no such line does not match and the scan
moves on to the next start position. -/

/-- Matcher for the regex fragment `.*\n`: consume characters other than
line terminators, then a literal newline; returns the consumed characters
(including the final newline) and the rest. -/
def splitLine : List Char → Option (List Char × List Char)
  | [] => none
  | c :: cs =>
    if c = '\n' then some (['\n'], cs)
    else if isLineTerm c then none
    else
      match splitLine cs with
      | some (ln, r) => some (c :: ln, r)
      | none => none

/-- Matcher for one iteration of `(\s.*\n)`: a `\s` character followed by
`.*\n`. -/
def matchSecLine (l : List Char) : Option (List Char × List Char) :=
  match l with
  | [] => none
  | c :: cs =>
    if isJsSpace c then
      match splitLine cs with
      | some (ln, r) => some (c :: ln, r)
      | none => none
    else none

/-- Fuelled matcher for `(\s.*\n)+`: as many section lines as possible,
at least one.  Each line consumes at least one character, so fuel
`l.length` is always sufficient. -/
def matchSecBodyGo : Nat → List Char → Option (List Char × List Char)
  | 0, _ => none
  | fuel + 1, l =>
    match matchSecLine l with
    | none => none
    | some (ln, rest) =>
      match matchSecBodyGo fuel rest with
      | none => some (ln, rest)
      | some (body, rest2) => some (ln ++ body, rest2)

/-- Matcher for `(\s.*\n)+` (capture group 1 of the section regex). -/
def matchSecBody (l : List Char) : Option (List Char × List Char) :=
  matchSecBodyGo l.length l

/-- The literal regex prefix `\[<name>\]\n`. -/
def sectionHeaderNL (name : List Char) : List Char :=
  '[' :: name ++ [']', '\n']

/-- Position-local matcher for the whole section regex at one start
position. -/
def trySection (name : List Char) (l : List Char) : Option (List Char) :=
  if (sectionHeaderNL name).isPrefixOf l then
    (matchSecBody (l.drop (sectionHeaderNL name).length)).map Prod.fst
  else none

/-- Model of `extractSection` for section names free of regex metacharacters (the
only names produced by the source are `branch "<name>"` and
`remote "<name>"`).  `none` models the `Err` "Could not find section". -/
def extractSection (config : List Char) (name : List Char) : Option (List Char) :=
  scanFor (trySection name) config

/-! ### Key/value decoding (`decodeKeyValuePairs`, lines 190-210)

The source splits the section body on `\n`, trims each line, skips empty
lines, splits each remaining line on the literal `" = "` (JS
`String.prototype.split`, which splits at *every* occurrence), skips the
line with only a `console.warn` when there is no separator, and otherwise
assigns `r[pieces[0]] = pieces[1]` on an object, so a later line with the
same key overwrites an earlier one.  The object is modelled as a lookup
function `List Char → Option (List Char)`. -/

/-- First occurrence of `sep` inside `l`: the text before it and the text
after it.  `none` when `sep` does not occur. -/
def splitFirst (sep : List Char) : List Char → Option (List Char × List Char)
  | [] => if sep.isPrefixOf [] then some ([], []) else none
  | c :: cs =>
    if sep.isPrefixOf (c :: cs) then some ([], (c :: cs).drop sep.length)
    else
      match splitFirst sep cs with
      | some (pre, post) => some (c :: pre, post)
      | none => none

/-- Fuelled JS `String.prototype.split` on a non-empty separator.  Each
step consumes at least one character, so fuel `l.length + 1` always
suffices. -/
def splitOnSeqGo (sep : List Char) : Nat → List Char → List (List Char)
  | 0, l => [l]
  | fuel + 1, l =>
    match splitFirst sep l with
    | none => [l]
    | some (pre, post) => pre :: splitOnSeqGo sep fuel post

/-- JS `String.prototype.split` on a non-empty separator. -/
def splitOnSeq (sep : List Char) (l : List Char) : List (List Char) :=
  splitOnSeqGo sep (l.length + 1) l

/-- JS `String.prototype.trim`: drop whitespace at both ends. -/
def jsTrim (l : List Char) : List Char :=
  ((l.dropWhile isJsSpace).reverse.dropWhile isJsSpace).reverse

/-- The literal separator `" = "` (space, equals, space). -/
def kvSep : List Char := [' ', '=', ' ']

/-- Processing of one line of a section body: trim; skip when empty; split
on `" = "`; skip (with only a diagnostic) when there is no separator;
otherwise the pair is `(pieces[0], pieces[1])`. -/
def decodeLine (line : List Char) : Option (List Char × List Char) :=
  let t := jsTrim line
  if t.length = 0 then none
  else
    match splitOnSeq kvSep t with
    | [_] => none
    | p0 :: p1 :: _ => some (p0, p1)
    | [] => none

/-- The raw key/value pairs of a section body, in line order. -/
def decodePairs (s : List Char) : List (List Char × List Char) :=
  (splitOnSeq ['\n'] s).filterMap decodeLine

/-- The JS object assignment `r[k] = v`, on an object modelled as a lookup
function. -/
def objAssign (r : List Char → Option (List Char)) (k v : List Char)
    (q : List Char) : Option (List Char) :=
  if q = k then some v else r q

/-- One iteration of the `decodeKeyValuePairs` loop: a decoded line
assigns `r[pieces[0]] = pieces[1]`; a skipped line leaves `r` unchanged. -/
def decodeStep (r : List Char → Option (List Char)) (line : List Char) :
    List Char → Option (List Char) :=
  match decodeLine line with
  | some kv => objAssign r kv.1 kv.2
  | none => r

/-- Model of `decodeKeyValuePairs` as a lookup function: the JS object built by the
assignments `r[key] = value`, starting from an empty object. -/
def decodeKeyValuePairsFn (s : List Char) : List Char → Option (List Char) :=
  (splitOnSeq ['\n'] s).foldl decodeStep (fun _ => none)

/-! ### Upstream resolution (`getBranchUpstream` lines 130-167,
`getRemoteUrl` lines 169-188, `getRepoState` lines 93-121)

The source distinguishes failures only by their message strings; the
specification names them, and `GitErr` carries one variant per `new Err`
site of the resolver. -/

/-- The error taxonomy of the resolver (one constructor per `new Err`
site; I/O failures are outside the model since functions take file
contents directly). -/
inductive GitErr
  | noGitFolder
  | malformedHead
  | sectionNotFound (header : List Char)
  | incompleteBranchConfig
  | unsupportedMergeRef
  | incompleteRemoteConfig
  | unsupportedRemoteUrlScheme
deriving DecidableEq

instance decEqExcept {ε α : Type} [DecidableEq ε] [DecidableEq α] :
    DecidableEq (Except ε α) := fun a b =>
  match a, b with
  | .error e, .error f =>
    if h : e = f then .isTrue (congrArg Except.error h)
    else .isFalse (fun hc => h (Except.error.inj hc))
  | .ok x, .ok y =>
    if h : x = y then .isTrue (congrArg Except.ok h)
    else .isFalse (fun hc => h (Except.ok.inj hc))
  | .error _, .ok _ => .isFalse (fun hc => Except.noConfusion hc)
  | .ok _, .error _ => .isFalse (fun hc => Except.noConfusion hc)

/-- The `IRepoState` record of the source. -/
structure RepoState where
  gitDataPath : List String
  branch : List Char
  upstream : List Char
  upstreamBranch : List Char
deriving DecidableEq

/-- Section name `remote "<name>"`. -/
def remoteSectionName (remoteName : List Char) : List Char :=
  "remote \"".data ++ remoteName ++ ['"']

/-- Section name `branch "<name>"`. -/
def branchSectionName (branch : List Char) : List Char :=
  "branch \"".data ++ branch ++ ['"']

/-- Model of `getRemoteUrl`, applied to the config file content: extract section
`remote "<name>"`, decode it, and require a truthy `url` value (JS
`!remoteInfo['url']` also fires on an empty string). -/
def getRemoteUrl (config : List Char) (remoteName : List Char) : Except GitErr (List Char) :=
  match extractSection config (remoteSectionName remoteName) with
  | none => .error (.sectionNotFound (remoteSectionName remoteName))
  | some sec =>
    match decodeKeyValuePairsFn sec "url".data with
    | some (c :: cs) => .ok (c :: cs)
    | _ => .error .incompleteRemoteConfig

/-- The literal ref-namespace prefix `refs/heads/`. -/
def refsHeads : List Char := "refs/heads/".data

/-- Model of `getBranchUpstream`, applied to the config file content: extract
section `branch "<name>"`, require truthy `remote` and `merge` values,
require `merge` to start with `refs/heads/`, strip that prefix, and
resolve the remote's url. -/
def getBranchUpstream (gitDataPath : List String) (config : List Char)
    (branch : List Char) : Except GitErr RepoState :=
  match extractSection config (branchSectionName branch) with
  | none => .error (.sectionNotFound (branchSectionName branch))
  | some sec =>
    match decodeKeyValuePairsFn sec "remote".data,
          decodeKeyValuePairsFn sec "merge".data with
    | some (r :: rs), some (m :: ms) =>
      if refsHeads.isPrefixOf (m :: ms) then
        match getRemoteUrl config (r :: rs) with
        | .error e => .error e
        | .ok url =>
          .ok ⟨gitDataPath, branch, url, (m :: ms).drop refsHeads.length⟩
      else .error .unsupportedMergeRef
    | _, _ => .error .incompleteBranchConfig

/-- Model of `getRepoState` after the `.git` directory has been found, applied to
the contents of `HEAD` and `config`: on a detached HEAD (a raw commit id)
the branch config is not consulted, the remote named literally `origin` is
resolved, and both `branch` and `upstreamBranch` are the commit id. -/
def getRepoStateCore (gitDataPath : List String) (head config : List Char) :
    Except GitErr RepoState :=
  match getCurrentHEAD head with
  | .malformed => .error .malformedHead
  | .sha1 sha =>
    match getRemoteUrl config "origin".data with
    | .error e => .error e
    | .ok url => .ok ⟨gitDataPath, sha, url, sha⟩
  | .branch b => getBranchUpstream gitDataPath config b

/-! ### Locating the `.git` directory (`findGitDataPath`, lines 243-258)

Paths are modelled as lists of components from the root; `path.dirname`
is `List.dropLast` (and is the identity exactly on the root `[]`), and
`path.join dir ".git"` is `dir ++ [".git"]`.  The filesystem is an
existence predicate on paths.  The do-while loop is fuelled by the length
of the starting path, which bounds the number of parent steps. -/

/-- One fuelled run of the do-while loop of `findGitDataPath`. -/
def findGitGo (fs : List String → Bool) : Nat → List String → Option (List String)
  | 0, _ => none
  | fuel + 1, p =>
    let d := p.dropLast
    if d = p then none
    else if fs (d ++ [".git"]) then some (d ++ [".git"])
    else findGitGo fs fuel d

/-- Model of `findGitDataPath`: starting from the *parent* of `p`, walk upwards
until a `.git` entry exists; `none` models the `Err` "Could not find .git
folder" returned when the root is reached. -/
def findGitDataPath (fs : List String → Bool) (p : List String) : Option (List String) :=
  findGitGo fs p.length p

/-! ### Final state construction (`getCurrentState`, lines 60-91)

After `getRepoState` succeeds the source validates the remote URL against
`^https:\/\/(.*)\.git$`, strips the `.git` suffix, and makes the file
path relative to the parent of the git data path, replacing every
backslash by a forward slash.  `path.relative` is modelled for the case
where the base is an ancestor of the file (the only case that can reach
this point, since the `.git` directory was found above the file), with
the host's separator `sep` joining the remaining components. -/

/-- The literal regex prefix `https://`. -/
def httpsMarker : List Char := "https://".data

/-- The literal regex suffix `.git`. -/
def gitSuffix : List Char := ".git".data

/-- The anchored regex `^https:\/\/(.*)\.git$`: the whole string is
`https://`, then characters other than line terminators, then `.git`. -/
def matchHttpsGit (url : List Char) : Bool :=
  httpsMarker.isPrefixOf url &&
  gitSuffix.isSuffixOf (url.drop httpsMarker.length) &&
  ((url.drop httpsMarker.length).take
    (url.length - httpsMarker.length - gitSuffix.length)).all (fun c => !isLineTerm c)

/-- The pattern the specification states, `^https:\/\/(.+)\.git$`: like
`matchHttpsGit` but the captured middle part must be non-empty. -/
def matchHttpsGitPlus (url : List Char) : Bool :=
  matchHttpsGit url && decide (httpsMarker.length + gitSuffix.length < url.length)

/-- Join path components with the host separator. -/
def joinSep (sep : Char) : List (List Char) → List Char
  | [] => []
  | [x] => x
  | x :: y :: rest => x ++ sep :: joinSep sep (y :: rest)

/-- Model of `path.relative base p` for `base` an ancestor of `p`, joined with the
host separator `sep`. -/
def relativeSep (sep : Char) (base p : List String) : List Char :=
  joinSep sep ((p.drop base.length).map String.data)

/-- The `replace(/\\/g, '/')` of the source. -/
def normalizeSeps (l : List Char) : List Char :=
  l.map (fun c => if c = '\\' then '/' else c)

/-- The `IState` record of the source. -/
structure IState where
  filePath : List Char
  lineNumber : Nat
  branch : List Char
  upstream : List Char
  upstreamBranch : List Char
deriving DecidableEq

/-- The tail of `getCurrentState` after `getRepoState` succeeded: validate
the remote URL, strip `.git`, and relativize the file path against the
parent of the git data path. -/
def buildState (sep : Char) (fsPath : List String) (lineNumber : Nat)
    (repoState : RepoState) : Except GitErr IState :=
  if matchHttpsGit repoState.upstream then
    .ok
      ⟨normalizeSeps (relativeSep sep repoState.gitDataPath.dropLast fsPath),
       lineNumber, repoState.branch,
       repoState.upstream.take (repoState.upstream.length - gitSuffix.length),
       repoState.upstreamBranch⟩
  else .error .unsupportedRemoteUrlScheme

/-! ### URL formatting (`createFileUrl` / `createBlameUrl` /
`createHistoryUrl`, lines 22-35) -/

/-- File view URL. -/
def createFileUrl (state : IState) : List Char :=
  state.upstream ++ "/blob/".data ++ state.upstreamBranch ++ "/".data ++
  state.filePath ++ "#L".data ++ (Nat.repr state.lineNumber).data

/-- Blame view URL. -/
def createBlameUrl (state : IState) : List Char :=
  state.upstream ++ "/blame/".data ++ state.upstreamBranch ++ "/".data ++
  state.filePath ++ "#L".data ++ (Nat.repr state.lineNumber).data

/-- History view URL. -/
def createHistoryUrl (state : IState) : List Char :=
  state.upstream ++ "/commits/".data ++ state.upstreamBranch ++ "/".data ++
  state.filePath

/-! ### The dynamically built regex (`extractSection` with an unescaped
section name)

`extractSection` interpolates the caller-supplied section name into the
regex source `\[<name>\]\n((\s.*\n)+)` without escaping.  To reason about
names that contain regex metacharacters, the regex built from the name is
modelled for a fragment of JS regex syntax: literal characters, `.`, and
`*` applied to a literal character.  Names using other metacharacters
(`(`, `)`, `[`, `]`, backslash, `+`, `?`, `|`, `^`, `$`, braces) leave
the modelled fragment — for several of them (an unbalanced `(`, an
unclosed `[`) the JS `RegExp` constructor throws — and compilation
returns `none` for them. -/

/-- One element of the compiled section-name pattern. -/
inductive PatItem
  | lit (c : Char)
  | dot
  | star (c : Char)
deriving DecidableEq

/-- Regex metacharacters whose interpolation leaves the modelled
fragment. -/
def regexMetaChars : List Char :=
  ['(', ')', '[', ']', '\\', '+', '?', '|', '^', '$', '\x7b', '\x7d']

/-- Compile an interpolated section name into pattern items, following JS
regex parsing on the modelled fragment: an ordinary character is a
literal, `.` matches any non-line-terminator, and `*` repeats the
preceding literal character. -/
def compileNamePattern : List Char → Option (List PatItem)
  | [] => some []
  | c :: '*' :: cs =>
    if c ∈ regexMetaChars || c = '*' || c = '.' then none
    else (compileNamePattern cs).map (fun ps => PatItem.star c :: ps)
  | c :: cs =>
    if c ∈ regexMetaChars || c = '*' then none
    else
      (compileNamePattern cs).map
        (fun ps => (if c = '.' then PatItem.dot else PatItem.lit c) :: ps)

/-- Backtracking matcher for a list of pattern items: returns the rest of
the input after a match, trying the longest repetition first for `star`
(JS greedy semantics). -/
def matchItems : List PatItem → List Char → Option (List Char)
  | [], l => some l
  | .lit c :: ps, l =>
    match l with
    | [] => none
    | x :: xs => if x = c then matchItems ps xs else none
  | .dot :: ps, l =>
    match l with
    | [] => none
    | x :: xs => if isLineTerm x then none else matchItems ps xs
  | .star c :: ps, l =>
    (List.range ((l.takeWhile (fun x => x = c)).length + 1)).reverse.findSome?
      (fun k => matchItems ps (l.drop k))

/-- Position-local matcher for the dynamically built regex
`\[<name>\]\n((\s.*\n)+)`: a literal `[`, the compiled name pattern, then
`]`, a newline and the section body.  The closing `]\n` is appended to
the item list so that a greedy `star` backtracks against it. -/
def trySectionPattern (items : List PatItem) (l : List Char) : Option (List Char) :=
  match l with
  | '[' :: rest =>
    match matchItems (items ++ [.lit ']', .lit '\n']) rest with
    | some rest2 => (matchSecBody rest2).map Prod.fst
    | none => none
  | _ => none

/-- Model of `extractSection` with the interpolated name interpreted as a regex.
The outer `none` models an interpolation outside the modelled fragment
(for several such names the `RegExp` constructor throws); otherwise the
inner option is the extraction result. -/
def extractSectionRegex (config : List Char) (sectionName : List Char) :
    Option (Option (List Char)) :=
  match compileNamePattern sectionName with
  | none => none
  | some items => some (scanFor (trySectionPattern items) config)

/-! ## Lemmas about the leftmost-match scanner -/

theorem scanFor_eq_some_of (f : List Char → Option α) (l : List Char) (a : α)
    (h : f l = some a) : scanFor f l = some a := by
  cases l with
  | nil => simpa [scanFor] using h
  | cons c cs => simp [scanFor, h]

theorem scanFor_eq_none_iff (f : List Char → Option α) (l : List Char) :
    scanFor f l = none ↔ ∀ s, s <:+ l → f s = none := by
  induction l with
  | nil =>
    simp only [scanFor]
    constructor
    · intro h s hs
      rw [List.suffix_nil.mp hs]
      exact h
    · intro h
      exact h [] List.nil_suffix
  | cons c cs ih =>
    simp only [scanFor]
    cases hf : f (c :: cs) with
    | some a =>
      simp only [reduceCtorEq, false_iff, not_forall]
      exact ⟨c :: cs, List.suffix_refl _, by simp [hf]⟩
    | none =>
      simp only [ih]
      constructor
      · intro h s hs
        rcases List.suffix_cons_iff.mp hs with rfl | hs'
        · exact hf
        · exact h s hs'
      · intro h s hs
        exact h s (hs.trans (List.suffix_cons c cs))

theorem scanFor_sound (f : List Char → Option α) (l : List Char) (a : α)
    (h : scanFor f l = some a) : ∃ s, s <:+ l ∧ f s = some a := by
  induction l with
  | nil => exact ⟨[], List.nil_suffix, by simpa [scanFor] using h⟩
  | cons c cs ih =>
    rw [scanFor] at h
    cases hf : f (c :: cs) with
    | some b =>
      rw [hf] at h
      exact ⟨c :: cs, List.suffix_refl _, hf.trans h⟩
    | none =>
      rw [hf] at h
      obtain ⟨s, hs, hfs⟩ := ih h
      exact ⟨s, hs.trans (List.suffix_cons c cs), hfs⟩

/-- The scan finds a match at the leftmost matching position: if the
pattern matches at the start of `t` and fails at every strictly earlier
position, the overall result is the match at `t`. -/
theorem scanFor_first (f : List Char → Option α) (pre t : List Char) (a : α)
    (hft : f t = some a)
    (hpre : ∀ s, s <:+ pre ++ t → t.length < s.length → f s = none) :
    scanFor f (pre ++ t) = some a := by
  induction pre with
  | nil => simpa using scanFor_eq_some_of f t a hft
  | cons c pre ih =>
    have hne : f (c :: (pre ++ t)) = none := by
      refine hpre _ (List.suffix_refl _) ?_
      simp only [List.length_cons, List.length_append]
      omega
    rw [List.cons_append, scanFor, hne]
    exact ih (fun s hs hlen => hpre s (hs.trans (List.suffix_cons c (pre ++ t))) hlen)

theorem occursB_eq_true_iff (pat s : List Char) :
    occursB pat s = true ↔ ∃ pre suf, s = pre ++ pat ++ suf := by
  unfold occursB
  rw [List.any_eq_true]
  constructor
  · rintro ⟨i, _, hp⟩
    rw [ List.isPrefixOf_iff_prefix] at hp
    rcases hp with ⟨suf, hsuf⟩
    exact ⟨s.take i, suf, by rw [List.append_assoc, hsuf, List.take_append_drop]⟩
  · rintro ⟨pre, suf, rfl⟩
    refine ⟨pre.length, ?_, ?_⟩
    · rw [List.mem_range]
      simp only [List.append_assoc, List.length_append]
      omega
    · rw [ List.isPrefixOf_iff_prefix, List.append_assoc, List.drop_left]
      exact List.prefix_append pat suf

theorem no_prefix_suffix_of_occursB_eq_false (pat l : List Char)
    (h : occursB pat l = false) :
    ∀ s, s <:+ l → pat.isPrefixOf s = false := by
  intro s hs
  cases hp : pat.isPrefixOf s with
  | false => rfl
  | true =>
    exfalso
    rw [ List.isPrefixOf_iff_prefix] at hp
    rcases hp with ⟨suf, rfl⟩
    rcases hs with ⟨pre, rfl⟩
    rw [← List.append_assoc] at h
    rw [(occursB_eq_true_iff pat _).mpr ⟨pre, suf, rfl⟩] at h
    cases h

theorem takeWhile_append_eq (p : Char → Bool) (a rest : List Char)
    (ha : ∀ c ∈ a, p c = true)
    (hrest : rest = [] ∨ ∃ d r', rest = d :: r' ∧ p d = false) :
    (a ++ rest).takeWhile p = a := by
  induction a with
  | nil =>
    rcases hrest with rfl | ⟨d, r', rfl, hd⟩
    · rfl
    · simp [List.takeWhile_cons, hd]
  | cons x xs ih =>
    have hx := ha x (by simp)
    simp only [List.cons_append, List.takeWhile_cons, hx, if_true]
    rw [ih (fun c hc => ha c (by simp [hc]))]

/-! ## C1: HEAD parsing -/

/-- C1: for every HEAD file content, `getCurrentHEAD` returns
`branch name` when the content contains `ref: refs/heads/` followed by
`name` (the rest of that line; trailing content ignored, first occurrence
taken, and this wins even if the content also contains a 40-hex run, which
is the pattern order); returns `sha1 sha` when the content is a standalone
40-character lowercase-hex string (with or without a trailing newline);
and returns `malformed` when the content matches neither pattern (no
occurrence of the symbolic-ref marker and no run of 40 lowercase-hex
characters). -/
theorem c1_getCurrentHEAD :
    (∀ pre name rest, (∀ c ∈ name, isLineTerm c = false) →
        (rest = [] ∨ ∃ d r', rest = d :: r' ∧ isLineTerm d = true) →
        (∀ s, s <:+ pre ++ (refMarker ++ name ++ rest) →
            (refMarker ++ name ++ rest).length < s.length →
            refMarker.isPrefixOf s = false) →
        getCurrentHEAD (pre ++ (refMarker ++ name ++ rest)) = .branch name)
    ∧ (∀ sha, sha.length = 40 → (∀ c ∈ sha, isHexLower c = true) →
        getCurrentHEAD sha = .sha1 sha ∧ getCurrentHEAD (sha ++ ['\n']) = .sha1 sha)
    ∧ (∀ head, (∀ s, s <:+ head → refMarker.isPrefixOf s = false) →
        (∀ s, s <:+ head → s.length < 40 ∨ (s.take 40).all isHexLower = false) →
        getCurrentHEAD head = .malformed) := by
  refine ⟨?_, ?_, ?_⟩
  · intro pre name rest hname hrest hleft
    have hf : tryRef (refMarker ++ name ++ rest) = some name := by
      rw [tryRef, if_pos]
      · rw [List.append_assoc, List.drop_left]
        rw [takeWhile_append_eq _ name rest]
        · intro c hc
          simp [hname c hc]
        · rcases hrest with rfl | ⟨d, r', rfl, hd⟩
          · exact Or.inl rfl
          · exact Or.inr ⟨d, r', rfl, by simp [hd]⟩
      · rw [ List.isPrefixOf_iff_prefix, List.append_assoc]
        exact List.prefix_append _ _
    have hscan : scanFor tryRef (pre ++ (refMarker ++ name ++ rest)) = some name := by
      refine scanFor_first tryRef pre _ name hf ?_
      intro s hs hlen
      simp [tryRef, hleft s hs hlen]
    rw [getCurrentHEAD, hscan]
  · intro sha hlen hhex
    have key : ∀ l : List Char, (∀ c ∈ l, isHexLower c = true ∨ c = '\n') →
        scanFor tryRef l = none := by
      intro l hl
      rw [scanFor_eq_none_iff]
      intro s hs
      have href : refMarker.isPrefixOf s = false := by
        cases hp : refMarker.isPrefixOf s with
        | false => rfl
        | true =>
          exfalso
          rw [ List.isPrefixOf_iff_prefix] at hp
          have hmem : ':' ∈ l := hs.subset (hp.subset (by decide))
          rcases hl ':' hmem with hh | hh
          · exact absurd hh (by decide)
          · exact absurd hh (by decide)
      simp [tryRef, href]
    have ht : sha.take 40 = sha := by rw [← hlen, List.take_length]
    have hall : sha.all isHexLower = true := List.all_eq_true.mpr hhex
    have hsha1 : trySha sha = some sha := by
      simp [trySha, ht, hlen, hall]
    constructor
    · rw [getCurrentHEAD, key sha (fun c hc => Or.inl (hhex c hc)),
        scanFor_eq_some_of trySha sha sha hsha1]
    · have ht2 : (sha ++ ['\n']).take 40 = sha := by
        rw [List.take_append_eq_append_take, ht, hlen]
        simp
      have hsha2 : trySha (sha ++ ['\n']) = some sha := by
        simp [trySha, ht2, hlen, hall]
      have hmem : ∀ c ∈ sha ++ ['\n'], isHexLower c = true ∨ c = '\n' := by
        intro c hc
        rcases List.mem_append.mp hc with h | h
        · exact Or.inl (hhex c h)
        · simp at h
          exact Or.inr h
      rw [getCurrentHEAD, key _ hmem, scanFor_eq_some_of trySha _ sha hsha2]
  · intro head h1 h2
    have hr : scanFor tryRef head = none := by
      rw [scanFor_eq_none_iff]
      intro s hs
      simp [tryRef, h1 s hs]
    have hsha : scanFor trySha head = none := by
      rw [scanFor_eq_none_iff]
      intro s hs
      have hcond : (decide ((s.take 40).length = 40) && (s.take 40).all isHexLower) = false := by
        rcases h2 s hs with hlt | hall
        · have hne : ¬((s.take 40).length = 40) := by
            rw [List.length_take]
            omega
          rw [decide_eq_false hne, Bool.false_and]
        · rw [hall, Bool.and_false]
      simp only [trySha]
      rw [hcond]
      simp
    rw [getCurrentHEAD, hr, hsha]

/-- Concrete instantiation of `c1_getCurrentHEAD` on the specification's
round-trip examples. -/
theorem c1_getCurrentHEAD_witness :
    getCurrentHEAD ("ref: refs/heads/feature/x\n".data) = .branch ("feature/x".data)
    ∧ getCurrentHEAD ("0123456789abcdef0123456789abcdef01234567".data) =
        .sha1 ("0123456789abcdef0123456789abcdef01234567".data)
    ∧ getCurrentHEAD ("hello".data) = .malformed := by
  refine ⟨?_, ?_, ?_⟩
  · have heq : "ref: refs/heads/feature/x\n".data =
        [] ++ (refMarker ++ "feature/x".data ++ ['\n']) := by decide
    rw [heq]
    refine c1_getCurrentHEAD.1 [] ("feature/x".data) ['\n'] (by decide)
      (Or.inr ⟨'\n', [], rfl, by decide⟩) ?_
    intro s hs hlen
    exfalso
    have h1 := hs.length_le
    have h2 : ([] ++ (refMarker ++ "feature/x".data ++ ['\n'])).length = 26 := by decide
    have h3 : (refMarker ++ "feature/x".data ++ ['\n']).length = 26 := by decide
    omega
  · exact (c1_getCurrentHEAD.2.1 _ (by decide) (by decide)).1
  · refine c1_getCurrentHEAD.2.2 _ ?_ ?_
    · exact no_prefix_suffix_of_occursB_eq_false refMarker ("hello".data) (by decide)
    · intro s hs
      left
      have h1 := hs.length_le
      have h2 : ("hello".data).length = 5 := by decide
      omega

/-! ## C3: section extraction lemmas -/

/-- A "section line" matched by the regex iteration `(\s.*\n)`: one JS
whitespace character, then non-line-terminator characters, then a
newline. -/
def IsSecLine (ln : List Char) : Prop :=
  ∃ c mid, ln = c :: (mid ++ ['\n']) ∧ isJsSpace c = true ∧
    ∀ x ∈ mid, isLineTerm x = false

/-- A section body matched by `(\s.*\n)+`: one or more section lines. -/
inductive IsSecBody : List Char → Prop
  | single (ln : List Char) : IsSecLine ln → IsSecBody ln
  | cons (ln b : List Char) : IsSecLine ln → IsSecBody b → IsSecBody (ln ++ b)

/-- Holds when `r` does not begin with a section line: the section has ended
at `r`. -/
def NoLeadingSecLine (r : List Char) : Prop :=
  ∀ ln r', r = ln ++ r' → ¬IsSecLine ln

theorem splitLine_sound : ∀ l ln r, splitLine l = some (ln, r) →
    l = ln ++ r ∧ ∃ mid, ln = mid ++ ['\n'] ∧ ∀ x ∈ mid, isLineTerm x = false := by
  intro l
  induction l with
  | nil =>
    intro ln r h
    simp [splitLine] at h
  | cons c cs ih =>
    intro ln r h
    rw [splitLine] at h
    split at h
    next hc =>
      injection h with h
      injection h with h2 h3
      subst hc
      refine ⟨?_, [], ?_, by simp⟩
      · rw [← h2, ← h3]
        rfl
      · rw [← h2]
        rfl
    next hc =>
      split at h
      next hterm => cases h
      next hterm =>
        split at h
        next ln' r' hsl =>
          injection h with h
          injection h with h2 h3
          obtain ⟨heq, mid, hmid, hall⟩ := ih _ _ hsl
          simp only [Bool.not_eq_true] at hterm
          refine ⟨?_, c :: mid, ?_, ?_⟩
          · rw [← h2, ← h3, List.cons_append, ← heq]
          · rw [← h2, hmid]
            rfl
          · intro x hx
            rcases List.mem_cons.mp hx with rfl | hx'
            · exact hterm
            · exact hall x hx'
        next hsl => cases h

theorem splitLine_complete : ∀ mid rest, (∀ x ∈ mid, isLineTerm x = false) →
    splitLine (mid ++ '\n' :: rest) = some (mid ++ ['\n'], rest) := by
  intro mid
  induction mid with
  | nil =>
    intro rest _
    simp [splitLine]
  | cons c mid ih =>
    intro rest hall
    have hc : isLineTerm c = false := hall c (by simp)
    have hne : ¬(c = '\n') := by
      intro hcon
      subst hcon
      simp [isLineTerm] at hc
    rw [List.cons_append, splitLine, if_neg hne, if_neg (by simp [hc]),
      ih rest (fun x hx => hall x (by simp [hx]))]
    rfl

theorem matchSecLine_sound : ∀ l ln r, matchSecLine l = some (ln, r) →
    l = ln ++ r ∧ IsSecLine ln := by
  intro l ln r h
  cases l with
  | nil => simp [matchSecLine] at h
  | cons c cs =>
    rw [matchSecLine] at h
    split at h
    next hc =>
      split at h
      next ln' r' hsl =>
        injection h with h
        injection h with h1 h2
        obtain ⟨heq, mid, hmid, hall⟩ := splitLine_sound cs _ _ hsl
        refine ⟨?_, c, mid, ?_, hc, hall⟩
        · rw [← h1, ← h2, List.cons_append, ← heq]
        · rw [← h1, hmid]
      next hsl => cases h
    next hc => cases h

theorem matchSecLine_complete : ∀ ln r, IsSecLine ln →
    matchSecLine (ln ++ r) = some (ln, r) := by
  intro ln r hln
  obtain ⟨c, mid, rfl, hc, hall⟩ := hln
  rw [List.cons_append, matchSecLine, if_pos hc]
  have : (mid ++ ['\n']) ++ r = mid ++ '\n' :: r := by simp
  rw [this, splitLine_complete mid r hall]

theorem noLeadingSecLine_iff (r : List Char) :
    NoLeadingSecLine r ↔ matchSecLine r = none := by
  constructor
  · intro h
    cases hm : matchSecLine r with
    | none => rfl
    | some p =>
      obtain ⟨ln, r'⟩ := p
      obtain ⟨heq, hln⟩ := matchSecLine_sound r ln r' hm
      exact absurd hln (h ln r' heq)
  · intro h ln r' heq hln
    rw [heq, matchSecLine_complete ln r' hln] at h
    cases h

theorem matchSecBodyGo_none_iff (fuel : Nat) (l : List Char) (hfuel : l.length ≤ fuel) :
    matchSecBodyGo fuel l = none ↔ matchSecLine l = none := by
  cases fuel with
  | zero =>
    have h0 : l = [] := List.length_eq_zero.mp (Nat.le_zero.mp hfuel)
    subst h0
    simp [matchSecBodyGo, matchSecLine]
  | succ f =>
    rw [matchSecBodyGo]
    constructor
    · intro h
      split at h
      next hm => exact hm
      next ln rest hm =>
        split at h
        · cases h
        · cases h
    · intro h
      rw [h]

theorem matchSecBodyGo_sound : ∀ fuel l b r, l.length ≤ fuel →
    matchSecBodyGo fuel l = some (b, r) →
    l = b ++ r ∧ IsSecBody b ∧ matchSecLine r = none := by
  intro fuel
  induction fuel with
  | zero =>
    intro l b r _ h
    cases h
  | succ f ih =>
    intro l b r hfuel h
    rw [matchSecBodyGo] at h
    split at h
    next hm => cases h
    next ln rest hm =>
      obtain ⟨heq, hln⟩ := matchSecLine_sound l ln rest hm
      have hlnlen : 1 ≤ ln.length := by
        obtain ⟨c, mid, hc, _, _⟩ := hln
        rw [hc]
        simp
      have hrest : rest.length ≤ f := by
        have h1 : l.length = ln.length + rest.length := by
          rw [heq, List.length_append]
        omega
      split at h
      next hgo =>
        injection h with h
        injection h with h1 h2
        refine ⟨?_, ?_, ?_⟩
        · rw [← h1, ← h2, heq]
        · rw [← h1]
          exact IsSecBody.single ln hln
        · rw [← h2]
          exact (matchSecBodyGo_none_iff f rest hrest).mp hgo
      next body rest2 hgo =>
        injection h with h
        injection h with h1 h2
        obtain ⟨heq2, hbody, hnone⟩ := ih rest body rest2 hrest hgo
        refine ⟨?_, ?_, ?_⟩
        · rw [← h1, ← h2, heq, heq2, List.append_assoc]
        · rw [← h1]
          exact IsSecBody.cons ln body hln hbody
        · rw [← h2]
          exact hnone

theorem matchSecBodyGo_succ_some (f : Nat) (l ln rest : List Char)
    (hm : matchSecLine l = some (ln, rest)) :
    matchSecBodyGo (f + 1) l =
      match matchSecBodyGo f rest with
      | none => some (ln, rest)
      | some (body, rest2) => some (ln ++ body, rest2) := by
  rw [matchSecBodyGo, hm]

theorem IsSecLine.length_pos (ln : List Char) (hln : IsSecLine ln) :
    1 ≤ ln.length := by
  obtain ⟨c, mid, hc, -, -⟩ := hln
  rw [hc]
  simp

theorem matchSecBodyGo_complete : ∀ b, IsSecBody b → ∀ rest fuel,
    (b ++ rest).length ≤ fuel →
    ∃ b' r', matchSecBodyGo fuel (b ++ rest) = some (b', r') := by
  intro b hb
  induction hb with
  | single ln hln =>
    intro rest fuel hfuel
    have hpos := IsSecLine.length_pos ln hln
    cases fuel with
    | zero =>
      exfalso
      have hge : 1 ≤ (ln ++ rest).length := by
        rw [List.length_append]
        omega
      omega
    | succ f =>
      rw [matchSecBodyGo_succ_some f (ln ++ rest) ln rest
        (matchSecLine_complete ln rest hln)]
      cases matchSecBodyGo f rest with
      | none => exact ⟨ln, rest, rfl⟩
      | some q =>
        obtain ⟨body, rest2⟩ := q
        exact ⟨ln ++ body, rest2, rfl⟩
  | cons ln b hln _ ih =>
    intro rest fuel hfuel
    have hpos := IsSecLine.length_pos ln hln
    have hassoc : ln ++ b ++ rest = ln ++ (b ++ rest) := List.append_assoc ln b rest
    cases fuel with
    | zero =>
      exfalso
      have hge : 1 ≤ (ln ++ b ++ rest).length := by
        rw [hassoc, List.length_append]
        omega
      omega
    | succ f =>
      have hlen : (b ++ rest).length ≤ f := by
        have h1 : (ln ++ (b ++ rest)).length = ln.length + (b ++ rest).length := by
          rw [List.length_append]
        rw [hassoc] at hfuel
        omega
      rw [hassoc, matchSecBodyGo_succ_some f (ln ++ (b ++ rest)) ln (b ++ rest)
        (matchSecLine_complete ln (b ++ rest) hln)]
      obtain ⟨b', r', hgo⟩ := ih rest f hlen
      rw [hgo]
      exact ⟨ln ++ b', r', rfl⟩

/-- C3 (amended): `extractSection` finds the literal text
`[<sectionHeader>]` followed by a newline *anywhere* in the config text
(not only at the start of a line); the returned section consists of one
or more subsequent lines that each begin with a whitespace character and
end with a newline, up to the first position where no further such line
follows (a trailing line not terminated by a newline is excluded); it
returns SectionNotFound exactly when no occurrence of the header is
followed by at least one such line. -/
theorem c3_extractSection_amended : ∀ config name,
    (∀ body, extractSection config name = some body →
      ∃ pre rest, config = pre ++ sectionHeaderNL name ++ body ++ rest ∧
        IsSecBody body ∧ NoLeadingSecLine rest)
    ∧ (extractSection config name = none ↔
        ¬∃ pre body rest, config = pre ++ sectionHeaderNL name ++ body ++ rest ∧
          IsSecBody body) := by
  intro config name
  have hsome : ∀ body, extractSection config name = some body →
      ∃ pre rest, config = pre ++ sectionHeaderNL name ++ body ++ rest ∧
        IsSecBody body ∧ NoLeadingSecLine rest := by
    intro body h
    obtain ⟨s, hs, hfs⟩ := scanFor_sound _ config body h
    rw [trySection] at hfs
    by_cases hp : (sectionHeaderNL name).isPrefixOf s = true
    · rw [if_pos hp] at hfs
      rw [ List.isPrefixOf_iff_prefix] at hp
      obtain ⟨tail, htail⟩ := hp
      have hdrop : s.drop (sectionHeaderNL name).length = tail := by
        rw [← htail, List.drop_left]
      rw [hdrop] at hfs
      rw [Option.map_eq_some'] at hfs
      obtain ⟨p, hgo, hfst⟩ := hfs
      obtain ⟨b0, r0⟩ := p
      obtain ⟨heq, hbody, hnone⟩ :=
        matchSecBodyGo_sound tail.length tail b0 r0 (le_refl _) hgo
      obtain ⟨pre, hpre⟩ := hs
      subst hfst
      refine ⟨pre, r0, ?_, hbody, (noLeadingSecLine_iff r0).mpr hnone⟩
      rw [← hpre, ← htail, heq]
      simp [List.append_assoc]
    · rw [if_neg hp] at hfs
      cases hfs
  refine ⟨hsome, ?_, ?_⟩
  · intro h hex
    obtain ⟨pre, body, rest, heq, hbody⟩ := hex
    rw [extractSection, scanFor_eq_none_iff] at h
    have hsuf : sectionHeaderNL name ++ body ++ rest <:+ config := by
      rw [heq, List.append_assoc, List.append_assoc]
      exact ⟨pre, by simp [List.append_assoc]⟩
    have := h _ hsuf
    rw [trySection, if_pos] at this
    · have hdrop : (sectionHeaderNL name ++ body ++ rest).drop
          (sectionHeaderNL name).length = body ++ rest := by
        rw [List.append_assoc, List.drop_left]
      rw [hdrop] at this
      obtain ⟨b', r', hgo⟩ :=
        matchSecBodyGo_complete body hbody rest (body ++ rest).length (le_refl _)
      rw [matchSecBody, hgo] at this
      cases this
    · rw [ List.isPrefixOf_iff_prefix, List.append_assoc]
      exact List.prefix_append _ _
  · intro h
    cases hcase : extractSection config name with
    | none => rfl
    | some body =>
      exfalso
      obtain ⟨pre, rest, heq, hbody, _⟩ := hsome body hcase
      exact h ⟨pre, body, rest, heq, hbody⟩

/-- C3 counterexample: the header match is not line-anchored.  In the
config text `x[s]\n\ta = b\n` no line starts with `[s]`, yet
`extractSection` finds the section. -/
theorem c3_counterexample :
    extractSection ("x[s]\n\ta = b\n".data) ("s".data) = some ("\ta = b\n".data)
    ∧ (splitOnSeq ['\n'] ("x[s]\n\ta = b\n".data)).all
        (fun ln => !(("[s]".data).isPrefixOf ln)) = true := by
  constructor
  · decide
  · decide

/-! ## C4: key/value decoding lemmas -/

/-- Holds when `k` and `v` are the pieces around the *first* occurrence of the
separator `" = "` in `l`. -/
def FirstSepSplit (l k v : List Char) : Prop :=
  l = k ++ kvSep ++ v ∧ ∀ k' v', l = k' ++ kvSep ++ v' → k.length ≤ k'.length

theorem splitFirst_sound (sep : List Char) : ∀ l pre post,
    splitFirst sep l = some (pre, post) →
    l = pre ++ sep ++ post ∧
      ∀ pre' post', l = pre' ++ sep ++ post' → pre.length ≤ pre'.length := by
  intro l
  induction l with
  | nil =>
    intro pre post h
    rw [splitFirst] at h
    split at h
    next hp =>
      injection h with h
      injection h with h1 h2
      rw [ List.isPrefixOf_iff_prefix] at hp
      have hsep : sep = [] := List.prefix_nil.mp hp
      refine ⟨by rw [← h1, ← h2, hsep]; rfl, ?_⟩
      intro pre' post' _
      rw [← h1]
      simp
    next => cases h
  | cons c cs ih =>
    intro pre post h
    rw [splitFirst] at h
    split at h
    next hp =>
      injection h with h
      injection h with h1 h2
      rw [ List.isPrefixOf_iff_prefix] at hp
      obtain ⟨tail, htail⟩ := hp
      have hdrop : (c :: cs).drop sep.length = tail := by
        rw [← htail, List.drop_left]
      refine ⟨?_, ?_⟩
      · rw [← h1, ← h2, hdrop, List.nil_append, ← htail]
      · intro pre' post' _
        rw [← h1]
        simp
    next hp =>
      split at h
      next pre0 post0 hsf =>
        injection h with h
        injection h with h1 h2
        obtain ⟨heq, hmin⟩ := ih _ _ hsf
        refine ⟨by rw [← h1, ← h2]; simp [heq], ?_⟩
        intro pre' post' hdec
        cases pre' with
        | nil =>
          exfalso
          rw [List.nil_append] at hdec
          have : sep.isPrefixOf (c :: cs) = true := by
            rw [ List.isPrefixOf_iff_prefix, hdec]
            exact List.prefix_append sep post'
          simp [this] at hp
        | cons c' pre'' =>
          rw [List.cons_append, List.cons_append] at hdec
          injection hdec with hd1 hd2
          have := hmin pre'' post' hd2
          rw [← h1]
          simp only [List.length_cons]
          omega
      next hsf => cases h

theorem splitFirst_eq_none_iff (sep : List Char) : ∀ l,
    splitFirst sep l = none ↔ ∀ pre post, l ≠ pre ++ sep ++ post := by
  intro l
  induction l with
  | nil =>
    rw [splitFirst]
    constructor
    · intro h pre post hdec
      split at h
      · cases h
      next hp =>
        have hpre : pre = [] := by
          cases pre with
          | nil => rfl
          | cons a as => cases hdec
        have hsep : sep = [] := by
          subst hpre
          rw [List.nil_append] at hdec
          cases sep with
          | nil => rfl
          | cons a as => cases hdec
        rw [hsep] at hp
        simp [List.isPrefixOf] at hp
    · intro h
      split
      next hp =>
        exfalso
        rw [ List.isPrefixOf_iff_prefix] at hp
        have hsep : sep = [] := List.prefix_nil.mp hp
        exact h [] [] (by rw [hsep]; rfl)
      next => rfl
  | cons c cs ih =>
    rw [splitFirst]
    constructor
    · intro h pre post hdec
      split at h
      · cases h
      next hp =>
        split at h
        next hsf => cases h
        next hsf =>
          cases pre with
          | nil =>
            rw [List.nil_append] at hdec
            have : sep.isPrefixOf (c :: cs) = true := by
              rw [ List.isPrefixOf_iff_prefix, hdec]
              exact List.prefix_append sep post
            simp [this] at hp
          | cons c' pre' =>
            rw [List.cons_append, List.cons_append] at hdec
            injection hdec with hd1 hd2
            exact (ih.mp hsf) pre' post hd2
    · intro h
      split
      next hp =>
        exfalso
        rw [ List.isPrefixOf_iff_prefix] at hp
        obtain ⟨tail, htail⟩ := hp
        exact h [] tail (by rw [List.nil_append, htail])
      next hp =>
        split
        next pre0 post0 hsf =>
          exfalso
          obtain ⟨heq, -⟩ := splitFirst_sound sep cs pre0 post0 hsf
          exact h (c :: pre0) post0 (by rw [List.cons_append, List.cons_append, ← heq])
        next => rfl

theorem splitFirst_of_firstSepSplit (l k v : List Char)
    (h : FirstSepSplit l k v) : splitFirst kvSep l = some (k, v) := by
  obtain ⟨heq, hmin⟩ := h
  cases hsf : splitFirst kvSep l with
  | none =>
    exfalso
    exact (splitFirst_eq_none_iff kvSep l).mp hsf k v heq
  | some p =>
    obtain ⟨k0, v0⟩ := p
    obtain ⟨heq0, hmin0⟩ := splitFirst_sound kvSep l k0 v0 hsf
    have hlen : k0.length = k.length :=
      Nat.le_antisymm (hmin0 k v heq) (hmin k0 v0 heq0)
    have hcomb : k ++ (kvSep ++ v) = k0 ++ (kvSep ++ v0) := by
      rw [← List.append_assoc, ← List.append_assoc, ← heq, ← heq0]
    obtain ⟨hk, hrest⟩ := List.append_inj hcomb hlen.symm
    have hv : v = v0 := List.append_cancel_left hrest
    rw [← hk, ← hv]

/-- Recursion equations for `splitOnSeq` (the fuel `l.length + 1` is
always sufficient). -/
theorem splitOnSeqGo_succ (sep : List Char) (f : Nat) (l : List Char) :
    splitOnSeqGo sep (f + 1) l =
      match splitFirst sep l with
      | none => [l]
      | some (pre, post) => pre :: splitOnSeqGo sep f post := rfl

theorem splitFirst_shrinks (sep : List Char) (hsep : sep ≠ []) (l pre post : List Char)
    (h : splitFirst sep l = some (pre, post)) : post.length < l.length := by
  obtain ⟨heq, -⟩ := splitFirst_sound sep l pre post h
  have hs : 1 ≤ sep.length := by
    cases sep with
    | nil => exact absurd rfl hsep
    | cons a as => simp
  rw [heq, List.length_append, List.length_append]
  omega

theorem splitOnSeqGo_fuel (sep : List Char) (hsep : sep ≠ []) : ∀ f g l,
    l.length < f → l.length < g →
    splitOnSeqGo sep f l = splitOnSeqGo sep g l := by
  intro f
  induction f with
  | zero =>
    intro g l hf
    omega
  | succ f ih =>
    intro g l hf hg
    cases g with
    | zero => omega
    | succ g =>
      rw [splitOnSeqGo_succ, splitOnSeqGo_succ]
      cases hsf : splitFirst sep l with
      | none => rfl
      | some p =>
        obtain ⟨pre, post⟩ := p
        have hpost := splitFirst_shrinks sep hsep l pre post hsf
        show pre :: splitOnSeqGo sep f post = pre :: splitOnSeqGo sep g post
        rw [ih g post (by omega) (by omega)]

theorem splitOnSeq_eq_cons (sep : List Char) (hsep : sep ≠ []) (l pre post : List Char)
    (h : splitFirst sep l = some (pre, post)) :
    splitOnSeq sep l = pre :: splitOnSeq sep post := by
  have hpost := splitFirst_shrinks sep hsep l pre post h
  rw [splitOnSeq, splitOnSeq, splitOnSeqGo_succ, h]
  show pre :: splitOnSeqGo sep l.length post =
    pre :: splitOnSeqGo sep (post.length + 1) post
  rw [splitOnSeqGo_fuel sep hsep l.length (post.length + 1) post (by omega) (by omega)]

theorem splitOnSeq_eq_single (sep l : List Char)
    (h : splitFirst sep l = none) : splitOnSeq sep l = [l] := by
  rw [splitOnSeq, splitOnSeqGo_succ, h]

theorem decodeStep_of_none (r : List Char → Option (List Char)) (line : List Char)
    (hd : decodeLine line = none) : decodeStep r line = r := by
  rw [decodeStep, hd]

theorem decodeStep_of_some (r : List Char → Option (List Char)) (line : List Char)
    (kv : List Char × List Char) (hd : decodeLine line = some kv) :
    decodeStep r line = objAssign r kv.1 kv.2 := by
  rw [decodeStep, hd]

theorem decodeFold_lookup : ∀ (lines : List (List Char))
    (r0 : List Char → Option (List Char)) (key : List Char),
    (lines.foldl decodeStep r0) key =
      (((lines.filterMap decodeLine).filter
          (fun p => decide (p.1 = key))).getLast?).elim (r0 key)
        (fun p => some p.2) := by
  intro lines
  induction lines with
  | nil =>
    intro r0 key
    rfl
  | cons line ls ih =>
    intro r0 key
    rw [List.foldl_cons]
    cases hd : decodeLine line with
    | none =>
      rw [List.filterMap_cons_none hd, decodeStep_of_none r0 line hd, ih]
    | some kv =>
      rw [List.filterMap_cons_some hd, decodeStep_of_some r0 line kv hd, ih]
      simp only [objAssign]
      by_cases hk : kv.1 = key
      · rw [List.filter_cons_of_pos (by simp [hk])]
        cases hcase : (ls.filterMap decodeLine).filter
            (fun p => decide (p.1 = key)) with
        | nil => simp [hk]
        | cons b l' =>
          rw [List.getLast?_cons_cons]
          cases hlast : (b :: l').getLast? with
          | none =>
            rw [List.getLast?_eq_none_iff] at hlast
            cases hlast
          | some p => simp
      · rw [List.filter_cons_of_neg (by simp [hk])]
        cases hlast : ((ls.filterMap decodeLine).filter
            (fun p => decide (p.1 = key))).getLast? with
        | none =>
          simp only [Option.elim_none]
          rw [if_neg (fun hcon => hk hcon.symm)]
        | some p => simp

/-- C4 (amended): each line of a section body is trimmed; an empty
trimmed line is skipped; a trimmed line containing no occurrence of the
separator `" = "` is skipped (with only a diagnostic — decoding is total
and never fails); otherwise the key is the text before the *first*
separator and the value is the text between the first and the second
separator (text after a second separator is dropped, which is where the
claim's "exactly two parts" fails); and the lookup of a key returns the
value of the *last* decoded line with that key (later occurrences
overwrite earlier ones). -/
theorem c4_decodeKeyValuePairs_amended :
    (∀ line, jsTrim line = [] → decodeLine line = none)
    ∧ (∀ line, (∀ k v, jsTrim line ≠ k ++ kvSep ++ v) → decodeLine line = none)
    ∧ (∀ line k v, FirstSepSplit (jsTrim line) k v →
        ((∀ a b, v ≠ a ++ kvSep ++ b) → decodeLine line = some (k, v))
        ∧ (∀ v1 v2, FirstSepSplit v v1 v2 → decodeLine line = some (k, v1)))
    ∧ (∀ s key, decodeKeyValuePairsFn s key =
        ((((splitOnSeq ['\n'] s).filterMap decodeLine).filter
          (fun p => decide (p.1 = key))).getLast?).map Prod.snd) := by
  refine ⟨?_, ?_, ?_, ?_⟩
  · intro line h
    simp [decodeLine, h]
  · intro line h
    by_cases ht : jsTrim line = []
    · simp [decodeLine, ht]
    · have hnone : splitFirst kvSep (jsTrim line) = none :=
        (splitFirst_eq_none_iff kvSep (jsTrim line)).mpr h
      have hsingle := splitOnSeq_eq_single kvSep (jsTrim line) hnone
      have hlen : ¬((jsTrim line).length = 0) := by
        intro hcon
        exact ht (List.length_eq_zero.mp hcon)
      simp [decodeLine, hsingle, hlen]
  · intro line k v hfss
    have hsf := splitFirst_of_firstSepSplit (jsTrim line) k v hfss
    have hcons := splitOnSeq_eq_cons kvSep (by decide) (jsTrim line) k v hsf
    have hlen : ¬((jsTrim line).length = 0) := by
      rw [hfss.1]
      simp [kvSep]
    constructor
    · intro hnov
      have hnone : splitFirst kvSep v = none :=
        (splitFirst_eq_none_iff kvSep v).mpr hnov
      have hsingle := splitOnSeq_eq_single kvSep v hnone
      simp [decodeLine, hlen, hcons, hsingle]
    · intro v1 v2 hfss2
      have hsf2 := splitFirst_of_firstSepSplit v v1 v2 hfss2
      have hcons2 := splitOnSeq_eq_cons kvSep (by decide) v v1 v2 hsf2
      simp [decodeLine, hlen, hcons, hcons2]
  · intro s key
    rw [decodeKeyValuePairsFn, decodeFold_lookup]
    cases ((((splitOnSeq ['\n'] s).filterMap decodeLine).filter
        (fun p => decide (p.1 = key))).getLast?) with
    | none => rfl
    | some p => rfl

/-- C4 counterexample: a line containing the separator twice is split
into three pieces (not "exactly two parts"), and the stored value is
`pieces[1]` (`b`), not the whole remainder `b = c` after the first
separator. -/
theorem c4_counterexample :
    decodeKeyValuePairsFn ("a = b = c".data) ("a".data) = some ("b".data)
    ∧ (splitOnSeq kvSep ("a = b = c".data)).length = 3
    ∧ ("b".data : List Char) ≠ "b = c".data := by
  refine ⟨by decide, by decide, by decide⟩

/-- Concrete instantiation of `c4_decodeKeyValuePairs_amended`: one
ordinary line, and a section body in which a later `k` overwrites an
earlier one. -/
theorem c4_decodeKeyValuePairs_amended_witness :
    decodeLine ("\tremote = origin".data) = some ("remote".data, "origin".data)
    ∧ decodeKeyValuePairsFn ("\tk = v1\n\tk = v2\n".data) ("k".data) =
        some ("v2".data) := by
  constructor
  · have hfss : FirstSepSplit (jsTrim ("\tremote = origin".data))
        ("remote".data) ("origin".data) :=
      splitFirst_sound kvSep (jsTrim ("\tremote = origin".data))
        ("remote".data) ("origin".data) (by decide)
    refine (c4_decodeKeyValuePairs_amended.2.2.1 _ _ _ hfss).1 ?_
    intro a b hcon
    exact (splitFirst_eq_none_iff kvSep ("origin".data)).mp (by decide) a b hcon
  · rw [c4_decodeKeyValuePairs_amended.2.2.2 ("\tk = v1\n\tk = v2\n".data) ("k".data)]
    decide

/-! ## C2: locating the `.git` directory -/

theorem findGitDataPath_concat (fs : List String → Bool) (q : List String) (a : String) :
    findGitDataPath fs (q ++ [a]) =
      if fs (q ++ [".git"]) then some (q ++ [".git"]) else findGitDataPath fs q := by
  rw [findGitDataPath, findGitDataPath]
  have hlen : (q ++ [a]).length = q.length + 1 := by simp
  rw [hlen]
  have hne : ¬((q ++ [a]).dropLast = q ++ [a]) := by simp
  simp only [findGitGo, List.dropLast_concat]
  rw [if_neg (by simp)]

/-- C2: starting from the parent of `p` (paths are component lists,
`dirname` is `dropLast`, which is the identity exactly at the root `[]`),
`findGitDataPath` returns `none` exactly when no proper-ancestor
directory of `p` has a `.git` entry, and when it returns a path, that
path is `t ++ [".git"]` for the *nearest* (longest) ancestor `t` of `p`
with a `.git` entry, at any depth. -/
theorem c2_findGitDataPath (fs : List String → Bool) : ∀ p : List String,
    (findGitDataPath fs p = none ↔
      ∀ t, t <+: p → t ≠ p → fs (t ++ [".git"]) = false)
    ∧ (∀ g, findGitDataPath fs p = some g →
        ∃ t, t <+: p ∧ t ≠ p ∧ fs (t ++ [".git"]) = true ∧ g = t ++ [".git"] ∧
          ∀ u, u <+: p → u ≠ p → fs (u ++ [".git"]) = true →
            u.length ≤ t.length) := by
  intro p
  induction p using List.reverseRecOn with
  | nil =>
    constructor
    · constructor
      · intro _ t ht hne
        exact absurd (List.prefix_nil.mp ht) hne
      · intro _
        rfl
    · intro g hg
      cases hg
  | append_singleton q a ih =>
    rw [findGitDataPath_concat]
    by_cases hfs : fs (q ++ [".git"]) = true
    · rw [if_pos hfs]
      constructor
      · constructor
        · intro h
          cases h
        · intro h
          exfalso
          have hcontra := h q (List.prefix_append q [a]) (by simp)
          rw [hfs] at hcontra
          cases hcontra
      · intro g hg
        injection hg with hg
        refine ⟨q, List.prefix_append q [a], by simp, hfs, hg.symm, ?_⟩
        intro u hu hune _
        have hu' : u <+: q := by
          rcases List.prefix_concat_iff.mp hu with h | h
          · exact absurd h hune
          · exact h
        exact hu'.length_le
    · rw [if_neg hfs]
      have hfs' : fs (q ++ [".git"]) = false := by
        cases hval : fs (q ++ [".git"]) with
        | false => rfl
        | true => exact absurd hval hfs
      constructor
      · rw [ih.1]
        constructor
        · intro h t ht htne
          rcases List.prefix_concat_iff.mp ht with rfl | ht'
          · exact absurd rfl htne
          · rcases eq_or_ne t q with rfl | htq
            · exact hfs'
            · exact h t ht' htq
        · intro h t ht htne
          refine h t (ht.trans (List.prefix_append q [a])) ?_
          intro hcon
          have hle := ht.length_le
          rw [hcon] at hle
          simp at hle
      · intro g hg
        obtain ⟨t, ht, htne, htfs, hgt, hmax⟩ := ih.2 g hg
        refine ⟨t, ht.trans (List.prefix_append q [a]), ?_, htfs, hgt, ?_⟩
        · intro hcon
          have hle := ht.length_le
          rw [hcon] at hle
          simp at hle
        · intro u hu hune hufs
          rcases List.prefix_concat_iff.mp hu with rfl | hu'
          · exact absurd rfl hune
          · rcases eq_or_ne u q with rfl | huq
            · rw [hfs'] at hufs
              cases hufs
            · exact hmax u hu' huq hufs

/-- Concrete instantiation of `c2_findGitDataPath`: a `.git` entry two
levels above the starting file is found. -/
theorem c2_findGitDataPath_witness :
    ∃ t, t <+: ["home", "user", "proj", "file.ts"] ∧
      t ≠ ["home", "user", "proj", "file.ts"] ∧
      (fun p => decide (p = ["home", "user", ".git"])) (t ++ [".git"]) = true ∧
      (["home", "user", ".git"] : List String) = t ++ [".git"] ∧
      ∀ u, u <+: ["home", "user", "proj", "file.ts"] →
        u ≠ ["home", "user", "proj", "file.ts"] →
        (fun p => decide (p = ["home", "user", ".git"])) (u ++ [".git"]) = true →
        u.length ≤ t.length :=
  (c2_findGitDataPath (fun p => decide (p = ["home", "user", ".git"]))
    ["home", "user", "proj", "file.ts"]).2 ["home", "user", ".git"] (by decide)

/-- Concrete instantiation of `c3_extractSection_amended`. -/
theorem c3_extractSection_amended_witness :
    ∃ pre rest, ("[s]\n\ta = b\nend\n".data) =
      pre ++ sectionHeaderNL ("s".data) ++ ("\ta = b\n".data) ++ rest ∧
      IsSecBody ("\ta = b\n".data) ∧ NoLeadingSecLine rest :=
  (c3_extractSection_amended ("[s]\n\ta = b\nend\n".data) ("s".data)).1
    ("\ta = b\n".data) (by decide)


/-! ## C5/C6: upstream resolution -/

/-- C5: `getBranchUpstream` looks up the section `branch "<name>"`; a
missing section fails with SectionNotFound; a decoded section without a
truthy `remote` or `merge` value fails with IncompleteBranchConfig
(JS `!x` also fires on the empty string); a `merge` value not starting
with `refs/heads/` fails with UnsupportedMergeRef; otherwise the prefix
is stripped and `getRemoteUrl` is consulted, whose failures
(SectionNotFound for a missing `remote "<name>"` section,
IncompleteRemoteConfig for a missing or empty `url`) are forwarded
unchanged, and whose success yields the fully populated state — the
first failure is returned and, by the `Except` result type, no partial
result exists. -/
theorem c5_getBranchUpstream (gitDataPath : List String) (config branch : List Char) :
    (extractSection config (branchSectionName branch) = none →
      getBranchUpstream gitDataPath config branch =
        .error (.sectionNotFound (branchSectionName branch)))
    ∧ (∀ sec, extractSection config (branchSectionName branch) = some sec →
        ((decodeKeyValuePairsFn sec "remote".data = none ∨
          decodeKeyValuePairsFn sec "remote".data = some [] ∨
          decodeKeyValuePairsFn sec "merge".data = none ∨
          decodeKeyValuePairsFn sec "merge".data = some []) →
          getBranchUpstream gitDataPath config branch =
            .error .incompleteBranchConfig)
        ∧ (∀ r m, decodeKeyValuePairsFn sec "remote".data = some r → r ≠ [] →
            decodeKeyValuePairsFn sec "merge".data = some m → m ≠ [] →
            (refsHeads.isPrefixOf m = false →
              getBranchUpstream gitDataPath config branch =
                .error .unsupportedMergeRef)
            ∧ (refsHeads.isPrefixOf m = true →
                (∀ e, getRemoteUrl config r = .error e →
                  getBranchUpstream gitDataPath config branch = .error e)
                ∧ (∀ url, getRemoteUrl config r = .ok url →
                    getBranchUpstream gitDataPath config branch =
                      .ok ⟨gitDataPath, branch, url, m.drop refsHeads.length⟩))))
    ∧ (∀ remoteName, extractSection config (remoteSectionName remoteName) = none →
        getRemoteUrl config remoteName =
          .error (.sectionNotFound (remoteSectionName remoteName)))
    ∧ (∀ remoteName rsec,
        extractSection config (remoteSectionName remoteName) = some rsec →
        (decodeKeyValuePairsFn rsec "url".data = none ∨
         decodeKeyValuePairsFn rsec "url".data = some []) →
        getRemoteUrl config remoteName = .error .incompleteRemoteConfig)
    ∧ (∀ remoteName rsec url,
        extractSection config (remoteSectionName remoteName) = some rsec →
        decodeKeyValuePairsFn rsec "url".data = some url → url ≠ [] →
        getRemoteUrl config remoteName = .ok url) := by
  have hbeq : ∀ sec, extractSection config (branchSectionName branch) = some sec →
      getBranchUpstream gitDataPath config branch =
        match decodeKeyValuePairsFn sec "remote".data,
              decodeKeyValuePairsFn sec "merge".data with
        | some (r :: rs), some (m :: ms) =>
          if refsHeads.isPrefixOf (m :: ms) then
            match getRemoteUrl config (r :: rs) with
            | .error e => .error e
            | .ok url =>
              .ok ⟨gitDataPath, branch, url, (m :: ms).drop refsHeads.length⟩
          else .error .unsupportedMergeRef
        | _, _ => .error .incompleteBranchConfig := by
    intro sec hsec
    rw [getBranchUpstream, hsec]
  have hreq : ∀ remoteName rsec,
      extractSection config (remoteSectionName remoteName) = some rsec →
      getRemoteUrl config remoteName =
        match decodeKeyValuePairsFn rsec "url".data with
        | some (c :: cs) => .ok (c :: cs)
        | _ => .error .incompleteRemoteConfig := by
    intro remoteName rsec hsec
    rw [getRemoteUrl, hsec]
  refine ⟨?_, ?_, ?_, ?_, ?_⟩
  · intro h
    rw [getBranchUpstream, h]
  · intro sec hsec
    constructor
    · intro hor
      rw [hbeq sec hsec]
      rcases hor with h | h | h | h
      · rw [h]
      · rw [h]
      · cases hr : decodeKeyValuePairsFn sec "remote".data with
        | none => rfl
        | some rl =>
          cases rl with
          | nil => rfl
          | cons a as => rw [h]
      · cases hr : decodeKeyValuePairsFn sec "remote".data with
        | none => rfl
        | some rl =>
          cases rl with
          | nil => rfl
          | cons a as => rw [h]
    · intro r m hr hrne hm hmne
      obtain ⟨r0, rs, rfl⟩ : ∃ a as, r = a :: as := by
        cases r with
        | nil => exact absurd rfl hrne
        | cons a as => exact ⟨a, as, rfl⟩
      obtain ⟨m0, ms, rfl⟩ : ∃ a as, m = a :: as := by
        cases m with
        | nil => exact absurd rfl hmne
        | cons a as => exact ⟨a, as, rfl⟩
      constructor
      · intro hpref
        rw [hbeq sec hsec, hr, hm]
        simp [hpref]
      · intro hpref
        constructor
        · intro e he
          rw [hbeq sec hsec, hr, hm]
          simp [hpref, he]
        · intro url hurl
          rw [hbeq sec hsec, hr, hm]
          simp [hpref, hurl]
  · intro remoteName h
    rw [getRemoteUrl, h]
  · intro remoteName rsec hsec hor
    rw [hreq remoteName rsec hsec]
    rcases hor with h | h
    · rw [h]
    · rw [h]
  · intro remoteName rsec url hsec hurl hne
    obtain ⟨u0, us, rfl⟩ : ∃ a as, url = a :: as := by
      cases url with
      | nil => exact absurd rfl hne
      | cons a as => exact ⟨a, as, rfl⟩
    rw [hreq remoteName rsec hsec, hurl]

/-- Concrete instantiation of `c5_getBranchUpstream` on the
specification's example config. -/
theorem c5_getBranchUpstream_witness :
    getBranchUpstream ["repo", ".git"]
      ("[branch \"main\"]\n\tremote = origin\n\tmerge = refs/heads/main\n[remote \"origin\"]\n\turl = https://github.com/org/repo.git\n".data)
      ("main".data) =
      .ok ⟨["repo", ".git"], "main".data,
        "https://github.com/org/repo.git".data, "main".data⟩ :=
  ((((c5_getBranchUpstream ["repo", ".git"]
      ("[branch \"main\"]\n\tremote = origin\n\tmerge = refs/heads/main\n[remote \"origin\"]\n\turl = https://github.com/org/repo.git\n".data)
      ("main".data)).2.1
      ("\tremote = origin\n\tmerge = refs/heads/main\n".data) (by decide)).2
      ("origin".data) ("refs/heads/main".data)
      (by decide) (by decide) (by decide) (by decide)).2 (by decide)).2
      ("https://github.com/org/repo.git".data) (by decide)

/-- C6: on a detached HEAD (the HEAD content parses as a raw 40-hex
commit id) `getRepoStateCore` performs no branch-section lookup: its
result is exactly `getRemoteUrl` at the remote named literally `origin`,
mapped into a state whose `branch` and `upstreamBranch` fields are both
the commit id verbatim (so the id is used as the ref segment of every
generated URL). -/
theorem c6_getRepoStateCore_detached (gitDataPath : List String)
    (head config : List Char) (sha : List Char)
    (h : getCurrentHEAD head = .sha1 sha) :
    getRepoStateCore gitDataPath head config =
      (getRemoteUrl config ("origin".data)).map
        (fun url => ⟨gitDataPath, sha, url, sha⟩)
    ∧ ∀ st, getRepoStateCore gitDataPath head config = .ok st →
        st.upstreamBranch = sha ∧ st.branch = sha := by
  have hmain : getRepoStateCore gitDataPath head config =
      (getRemoteUrl config ("origin".data)).map
        (fun url => ⟨gitDataPath, sha, url, sha⟩) := by
    rw [getRepoStateCore, h]
    cases hurl : getRemoteUrl config ("origin".data) with
    | error e => rfl
    | ok url => rfl
  refine ⟨hmain, ?_⟩
  intro st hst
  rw [hmain] at hst
  cases hurl : getRemoteUrl config ("origin".data) with
  | error e =>
    rw [hurl] at hst
    cases hst
  | ok url =>
    rw [hurl] at hst
    injection hst with hst
    rw [← hst]
    exact ⟨rfl, rfl⟩

/-- Concrete instantiation of `c6_getRepoStateCore_detached`. -/
theorem c6_getRepoStateCore_detached_witness :
    getRepoStateCore ["repo", ".git"]
      ("0123456789abcdef0123456789abcdef01234567".data)
      ("[remote \"origin\"]\n\turl = https://github.com/acme/widgets.git\n".data) =
      (getRemoteUrl
        ("[remote \"origin\"]\n\turl = https://github.com/acme/widgets.git\n".data)
        ("origin".data)).map
        (fun url => ⟨["repo", ".git"],
          "0123456789abcdef0123456789abcdef01234567".data, url,
          "0123456789abcdef0123456789abcdef01234567".data⟩) :=
  (c6_getRepoStateCore_detached ["repo", ".git"] _ _ _ (by decide)).1

/-! ## C7/C8: final state construction -/

/-- C7 (amended): the URL validation succeeds exactly when the remote
URL matches the source's pattern `^https:\/\/(.*)\.git$` — i.e. is
`https://`, then a possibly *empty* run of non-line-terminator
characters (the claim's `(.+)` requires a non-empty run, which the code
does not), then `.git`; on failure the whole resolution fails with
UnsupportedRemoteUrlScheme (an SSH-style URL is rejected, not
transformed); on success the `.git` suffix is stripped. -/
theorem c7_buildState_amended (sep : Char) (fsPath : List String) (n : Nat)
    (repoState : RepoState) :
    (matchHttpsGit repoState.upstream = true ↔
      ∃ mid, repoState.upstream = httpsMarker ++ mid ++ gitSuffix ∧
        ∀ c ∈ mid, isLineTerm c = false)
    ∧ (matchHttpsGit repoState.upstream = false →
        buildState sep fsPath n repoState = .error .unsupportedRemoteUrlScheme)
    ∧ (∀ st, buildState sep fsPath n repoState = .ok st →
        matchHttpsGit repoState.upstream = true ∧
        st.upstream =
          repoState.upstream.take (repoState.upstream.length - gitSuffix.length)) := by
  refine ⟨?_, ?_, ?_⟩
  · constructor
    · intro h
      rw [matchHttpsGit, Bool.and_eq_true, Bool.and_eq_true] at h
      obtain ⟨⟨hpre, hsuf⟩, hall⟩ := h
      rw [ List.isPrefixOf_iff_prefix] at hpre
      obtain ⟨rest, hrest⟩ := hpre
      rw [List.isSuffixOf_iff_suffix] at hsuf
      have hdrop : repoState.upstream.drop httpsMarker.length = rest := by
        rw [← hrest, List.drop_left]
      rw [hdrop] at hsuf hall
      obtain ⟨mid, hmid⟩ := hsuf
      refine ⟨mid, by rw [← hrest, ← hmid]; exact (List.append_assoc _ _ _).symm, ?_⟩
      have hlen : repoState.upstream.length - httpsMarker.length - gitSuffix.length =
          mid.length := by
        rw [← hrest, ← hmid]
        simp [httpsMarker, gitSuffix]
      rw [hlen, ← hmid, List.take_left] at hall
      intro c hc
      have := List.all_eq_true.mp hall c hc
      simpa using this
    · rintro ⟨mid, heq, hall⟩
      rw [matchHttpsGit, heq]
      have h1 : (httpsMarker ++ mid ++ gitSuffix).drop httpsMarker.length =
          mid ++ gitSuffix := by
        rw [List.append_assoc, List.drop_left]
      rw [h1]
      have h2 : httpsMarker.isPrefixOf (httpsMarker ++ mid ++ gitSuffix) = true := by
        rw [ List.isPrefixOf_iff_prefix, List.append_assoc]
        exact List.prefix_append _ _
      have h3 : gitSuffix.isSuffixOf (mid ++ gitSuffix) = true := by
        rw [List.isSuffixOf_iff_suffix]
        exact List.suffix_append _ _
      have h4 : (httpsMarker ++ mid ++ gitSuffix).length - httpsMarker.length -
          gitSuffix.length = mid.length := by
        simp [httpsMarker, gitSuffix]
      rw [h2, h4, List.take_left, Bool.true_and]
      rw [h3, Bool.true_and]
      rw [List.all_eq_true]
      intro c hc
      simp [hall c hc]
  · intro h
    rw [buildState, if_neg (by simp [h])]
  · intro st hst
    rw [buildState] at hst
    split at hst
    next hcond =>
      injection hst with hst
      refine ⟨hcond, ?_⟩
      rw [← hst]
    next hcond => cases hst

/-- C7 counterexample: the source pattern is `(.*)`, not the claimed
`(.+)`: the degenerate URL `https://.git` (empty capture) is accepted
and stripped to `https://`, instead of failing with
UnsupportedRemoteUrlScheme. -/
theorem c7_counterexample :
    matchHttpsGitPlus ("https://.git".data) = false
    ∧ buildState '/' ["repo", "f.ts"] 1
        ⟨["repo", ".git"], "main".data, "https://.git".data, "main".data⟩ =
      .ok ⟨"f.ts".data, 1, "main".data, "https://".data, "main".data⟩ := by
  refine ⟨by decide, by decide⟩

/-- Concrete instantiation of `c7_buildState_amended`: the
specification's SSH-style example is rejected. -/
theorem c7_buildState_amended_witness :
    buildState '/' ["repo", "f.ts"] 1
      ⟨["repo", ".git"], "main".data,
        "git@github.com:acme/widgets.git".data, "main".data⟩ =
      .error .unsupportedRemoteUrlScheme :=
  (c7_buildState_amended '/' ["repo", "f.ts"] 1 _).2.1 (by decide)

theorem backslash_not_mem_normalizeSeps (l : List Char) : '\\' ∉ normalizeSeps l := by
  intro h
  rw [normalizeSeps, List.mem_map] at h
  obtain ⟨c, -, hc⟩ := h
  by_cases hcb : c = '\\'
  · rw [if_pos hcb] at hc
    exact absurd hc (by decide)
  · rw [if_neg hcb] at hc
    exact hcb hc

theorem normalizeSeps_of_no_backslash : ∀ l : List Char, '\\' ∉ l →
    normalizeSeps l = l := by
  intro l
  induction l with
  | nil =>
    intro _
    rfl
  | cons c cs ih =>
    intro h
    have hc : ¬(c = '\\') := fun hcon => h (hcon ▸ List.mem_cons_self c cs)
    have hcs : '\\' ∉ cs := fun hmem => h (List.mem_cons_of_mem c hmem)
    rw [normalizeSeps, List.map_cons, if_neg hc]
    rw [normalizeSeps] at ih
    rw [ih hcs]

theorem normalizeSeps_append (a b : List Char) :
    normalizeSeps (a ++ b) = normalizeSeps a ++ normalizeSeps b := by
  rw [normalizeSeps, normalizeSeps, normalizeSeps, List.map_append]

theorem normalizeSeps_joinSep (sep : Char) (hsep : sep = '/' ∨ sep = '\\') :
    ∀ xs : List (List Char), (∀ x ∈ xs, '\\' ∉ x) →
    normalizeSeps (joinSep sep xs) = joinSep '/' xs := by
  intro xs
  induction xs with
  | nil =>
    intro _
    rfl
  | cons x xs ih =>
    intro hall
    cases xs with
    | nil => exact normalizeSeps_of_no_backslash x (hall x (by simp))
    | cons y ys =>
      rw [joinSep, joinSep]
      have hx : normalizeSeps (x ++ sep :: joinSep sep (y :: ys)) =
          normalizeSeps x ++ normalizeSeps (sep :: joinSep sep (y :: ys)) :=
        normalizeSeps_append x _
      rw [hx, normalizeSeps_of_no_backslash x (hall x (by simp))]
      have hsepn : normalizeSeps (sep :: joinSep sep (y :: ys)) =
          '/' :: normalizeSeps (joinSep sep (y :: ys)) := by
        rw [normalizeSeps, List.map_cons]
        rcases hsep with rfl | rfl
        · rw [if_neg (by decide)]
          rfl
        · rw [if_pos rfl]
          rfl
      rw [hsepn, ih (fun z hz => hall z (by simp [hz]))]

/-- C8: on a successful build, the state's file path is the input path
made relative to the parent of the git data path (`path.dirname`, i.e.
dropping the final `.git` component), joined with the host separator and
with every backslash replaced by a forward slash; consequently it never
contains a backslash, and under either host separator convention (`/` or
`\`) it equals the forward-slash join whenever the components themselves
contain no backslash. -/
theorem c8_relative_path (sep : Char) (root rel : List String) (n : Nat)
    (repoState : RepoState) (st : IState)
    (hgit : repoState.gitDataPath = root ++ [".git"])
    (hok : buildState sep (root ++ rel) n repoState = .ok st) :
    st.filePath = normalizeSeps (joinSep sep (rel.map String.data))
    ∧ '\\' ∉ st.filePath
    ∧ ((sep = '/' ∨ sep = '\\') → (∀ comp ∈ rel, '\\' ∉ comp.data) →
        st.filePath = joinSep '/' (rel.map String.data)) := by
  rw [buildState] at hok
  split at hok
  next hcond =>
    injection hok with hok
    have hfile : st.filePath =
        normalizeSeps (relativeSep sep repoState.gitDataPath.dropLast (root ++ rel)) := by
      rw [← hok]
    have hrel : relativeSep sep repoState.gitDataPath.dropLast (root ++ rel) =
        joinSep sep (rel.map String.data) := by
      rw [relativeSep, hgit, List.dropLast_concat, List.drop_left]
    rw [hrel] at hfile
    refine ⟨hfile, ?_, ?_⟩
    · rw [hfile]
      exact backslash_not_mem_normalizeSeps _
    · intro hsep hcomp
      rw [hfile]
      refine normalizeSeps_joinSep sep hsep _ ?_
      intro x hx
      rw [List.mem_map] at hx
      obtain ⟨comp, hcomp', rfl⟩ := hx
      exact hcomp comp hcomp'
  next hcond => cases hok

/-- Concrete instantiation of `c8_relative_path` with the Windows
separator. -/
theorem c8_relative_path_witness :
    ("src/app.ts".data : List Char) =
        normalizeSeps (joinSep '\\' (["src", "app.ts"].map String.data))
    ∧ '\\' ∉ ("src/app.ts".data : List Char)
    ∧ (('\\' = '/' ∨ '\\' = '\\') → (∀ comp ∈ ["src", "app.ts"], '\\' ∉ comp.data) →
        ("src/app.ts".data : List Char) = joinSep '/' (["src", "app.ts"].map String.data)) :=
  c8_relative_path '\\' ["c", "repo"] ["src", "app.ts"] 42
    ⟨["c", "repo", ".git"], "main".data,
      "https://github.com/acme/widgets.git".data, "main".data⟩
    ⟨"src/app.ts".data, 42, "main".data,
      "https://github.com/acme/widgets".data, "main".data⟩
    (by decide) (by decide)

/-! ## C9/C10: URL formatting and the dynamic regex -/

/-- C9: the three URL formatters produce exactly the templates
`<upstream>/blob/<branch>/<path>#L<line>` (file view),
`<upstream>/blame/<branch>/<path>#L<line>` (blame view) and
`<upstream>/commits/<branch>/<path>` (history view); the history URL has
no line anchor — it does not depend on the line number at all. -/
theorem c9_url_templates : ∀ st : IState,
    createFileUrl st = st.upstream ++ "/blob/".data ++ st.upstreamBranch ++
      "/".data ++ st.filePath ++ "#L".data ++ (Nat.repr st.lineNumber).data
    ∧ createBlameUrl st = st.upstream ++ "/blame/".data ++ st.upstreamBranch ++
      "/".data ++ st.filePath ++ "#L".data ++ (Nat.repr st.lineNumber).data
    ∧ createHistoryUrl st = st.upstream ++ "/commits/".data ++
      st.upstreamBranch ++ "/".data ++ st.filePath
    ∧ ∀ n m : Nat,
        createHistoryUrl ⟨st.filePath, n, st.branch, st.upstream, st.upstreamBranch⟩ =
        createHistoryUrl ⟨st.filePath, m, st.branch, st.upstream, st.upstreamBranch⟩ :=
  fun _ => ⟨rfl, rfl, rfl, fun _ _ => rfl⟩

/-- C10: interpolating a section name that contains regex metacharacters
into the dynamically built regex changes its meaning.  With the name
`x*` (an unescaped quantifier) the built regex `\[x*\]\n((\s.*\n)+)`
matches the section under the header `[xx]` although the literal header
`[x*]` occurs nowhere in the config — a section other than the one whose
literal header was requested (the literal-header reading finds nothing);
and a name such as `branch "a(b"` (unbalanced parenthesis) leaves the
modelled regex fragment entirely: the JS `RegExp` constructor throws a
SyntaxError for it instead of any SectionNotFound result value being
returned. -/
theorem c10_extractSection_metachars :
    extractSectionRegex ("[xx]\n\ta = b\n".data) ("x*".data) =
      some (some ("\ta = b\n".data))
    ∧ occursB ("[x*]".data) ("[xx]\n\ta = b\n".data) = false
    ∧ extractSection ("[xx]\n\ta = b\n".data) ("x*".data) = none
    ∧ compileNamePattern ("branch \"a(b\"".data) = none := by
  refine ⟨by decide, by decide, by decide, by decide⟩

end OpenGithub
